import Mathlib

/-!
Shallow embedding of the sandboxed path-resolution and file-operation layer of
`gossa.go` (a single-file Go web file server).  Paths are Go strings, modelled
as Lean `String`s (character lists; all paths of interest are ASCII, where Go's
byte-wise string functions and Lean's character-wise ones agree).  The
filesystem's symlink-resolution behaviour (`filepath.EvalSymlinks`) is an
oracle parameter `fsEval : String → String`, returning the resolved path, with
`""` standing for the "error" outcome that the Go code discards
(`sl, _ := filepath.EvalSymlinks(fp)` yields `""` on error).
-/

namespace Gossa

/-- Prefix test: `leadsWith s pat = true` iff `pat` is a leading segment (prefix) of `s`,
character by character.  Embeds Go's `strings.HasPrefix` at the list level. -/
def leadsWith : List Char → List Char → Bool
  | _, [] => true
  | [], _ :: _ => false
  | a :: as, b :: bs => (a == b) && leadsWith as bs

/-- Go `strings.HasPrefix(s, pre)`. -/
def hasPref (s pre : String) : Bool :=
  leadsWith s.toList pre.toList

/-- Go `strings.TrimPrefix(s, pre)`: drops `pre` from the front when present,
otherwise returns `s` unchanged. -/
def trimPref (s pre : String) : String :=
  if hasPref s pre then String.mk (s.toList.drop pre.toList.length) else s

/-- Substring test: `subOccurs sub l = true` iff `sub` occurs contiguously inside `l`. -/
def subOccurs (sub : List Char) : List Char → Bool
  | [] => sub.isEmpty
  | c :: cs => leadsWith (c :: cs) sub || subOccurs sub cs

/-- Go `strings.Contains(s, sub)`. -/
def containsSub (s sub : String) : Bool :=
  subOccurs sub.toList s.toList

/-- Split a character list at every occurrence of `sep`; always returns a
non-empty list of components.  Embeds Go's `strings.Split(s, sep)` for a
single-character separator. -/
def splitOnChar (sep : Char) : List Char → List (List Char)
  | [] => [[]]
  | c :: cs =>
    match splitOnChar sep cs with
    | [] => [[]]
    | h :: t => if c == sep then [] :: h :: t else (c :: h) :: t

/-- Last element of a list of components, embedding Go's `sl[len(sl)-1]`
(the default is never reached on `splitOnChar` output, which is non-empty). -/
def lastComp (d : List Char) : List (List Char) → List Char
  | [] => d
  | [x] => x
  | _ :: y :: t => lastComp d (y :: t)

/-- The element-stack loop of Go `path/filepath.Clean` (Unix rules), over the
already-split components.  `out` is the reversed stack of emitted components.
Empty and `"."` components are dropped; `".."` pops a poppable component, is
dropped at the root when `rooted`, and accumulates otherwise. -/
def cleanComps (rooted : Bool) : List (List Char) → List (List Char) → List (List Char)
  | out, [] => out.reverse
  | out, c :: cs =>
    if c.isEmpty || c == ['.'] then cleanComps rooted out cs
    else if c == ['.', '.'] then
      match out with
      | [] => if rooted then cleanComps rooted [] cs
              else cleanComps rooted [['.', '.']] cs
      | o :: os => if o == ['.', '.'] then cleanComps rooted (['.', '.'] :: o :: os) cs
                   else cleanComps rooted os cs
    else cleanComps rooted (c :: out) cs

/-- Re-join cleaned components with `'/'`. -/
def joinComps : List (List Char) → List Char
  | [] => []
  | [c] => c
  | c :: c2 :: cs => c ++ '/' :: joinComps (c2 :: cs)

/-- Go `path/filepath.Clean` for Unix separators: lexical normalization that
collapses `//`, `.` and `..` segments without touching the filesystem. -/
def goClean (p : String) : String :=
  if p.toList.isEmpty then "."
  else
    let l := p.toList
    let rooted := l.head? == some '/'
    let body := joinComps (cleanComps rooted [] (splitOnChar '/' l))
    if rooted then String.mk ('/' :: body)
    else if body.isEmpty then "." else String.mk body

/-- Go `path/filepath.Join(a, b)` (two-argument form): concatenate the
non-empty elements with `'/'` and `Clean` the result; all empty yields `""`. -/
def goJoin (a b : String) : String :=
  if a.toList.isEmpty then
    (if b.toList.isEmpty then "" else goClean b)
  else goClean (a ++ "/" ++ b)

/-- Go `path/filepath.Abs` on Unix: an absolute path is `Clean`ed, a relative
one is joined onto the working directory `cwd`.  On Unix this only errors when
the working directory cannot be read, which is not modelled: in `gossa` the
argument is always absolute (it starts with the absolute `initPath`). -/
def goAbs (cwd p : String) : String :=
  if hasPref p "/" then goClean p else goJoin cwd p

/-- The process-wide configuration of `gossa.go`: `initPath` (the
canonicalized absolute root, `filepath.Abs` of the shared directory),
`extraPath` (the `-prefix` route prefix, default `"/"`), `skipHidden`
(`-k`, default true), `symlinks` (`-symlinks`, default false), and the
working directory used by `filepath.Abs` for relative inputs. -/
structure Config where
  initPath : String
  extraPath : String
  skipHidden : Bool
  symlinks : Bool
  cwd : String

/-- Lines 262–263 of `gossa.go`:
`joined := filepath.Join(initPath, strings.TrimPrefix(p, *extraPath))` followed
by `fp, err := filepath.Abs(joined)`. -/
def resolvedAbs (cfg : Config) (p : String) : String :=
  goAbs cfg.cwd (goJoin cfg.initPath (trimPref p cfg.extraPath))

/-- Embedding of `enforcePath` (lines 261–275 of `gossa.go`).  `none` models the
`panic(errors.New("invalid path"))` rejection; `some fp` is the returned
verified path.  The guard is the source's disjunction verbatim:
no `initPath` prefix on the absolute path, or a `"/."` occurrence in the raw
request while hiding hidden files, or (when not following symlinks) a
non-empty symlink resolution that lacks the `initPath` prefix. -/
def enforcePath (cfg : Config) (fsEval : String → String) (p : String) : Option String :=
  if !hasPref (resolvedAbs cfg p) cfg.initPath
      || (cfg.skipHidden && containsSub p "/.")
      || (!cfg.symlinks && (fsEval (resolvedAbs cfg p)).length != 0
            && !hasPref (fsEval (resolvedAbs cfg p)) cfg.initPath)
  then none
  else some (resolvedAbs cfg p)

/-- One entry of the Unix `zip.FileHeader` data the handler sets: the archive
path (`header.Name`) and the compression method (`header.Method`).  `gossa`
forces the method to `zip.Store` (constant `0`: stored, uncompressed). -/
structure ZipEntry where
  name : String
  method : Nat
deriving DecidableEq

/-- The `zip.Store` method constant (archive/zip: `Store uint16 = 0`). -/
def zipStore : Nat := 0

/-- One visit of Go's `filepath.Walk` as seen by the `zipRPC` callback: the
path of the visited entry relative to the requested root (`filepath.Rel` of it,
already in forward-slash form on Unix, `"."` for the root itself), whether its
`Lstat` info is a directory, and whether its mode bit marks it a symlink.
`filepath.Walk` supplies every descendant of the requested subtree in lexical
order, directories included, without following symlinks. -/
structure WalkItem where
  rel : String
  isDir : Bool
  isSym : Bool
deriving DecidableEq

/-- The `zipRPC` walk callback (lines 207–236 of `gossa.go`) folded over the
visit sequence: directories produce nothing; a relative path starting with
`"."` is skipped when `skipHidden`; a (non-skipped) symlink aborts the whole
walk via `panic(errors.New("symlink not allowed in zip downloads"))`; an
ordinary file emits a stored (`zip.Store`) entry named by its relative path.
`Except.error` models the panic: the stream is aborted and no further entries
are written. -/
def zipProcess (skipHidden : Bool) : List WalkItem → Except String (List ZipEntry)
  | [] => .ok []
  | it :: rest =>
    if it.isDir then zipProcess skipHidden rest
    else if skipHidden && hasPref it.rel "." then zipProcess skipHidden rest
    else if it.isSym then .error "symlink not allowed in zip downloads"
    else
      match zipProcess skipHidden rest with
      | .error s => .error s
      | .ok es => .ok (⟨it.rel, zipStore⟩ :: es)

/-- An RPC request body: `{"call": ..., "args": [...]}` (lines 66–69). -/
structure RpcCall where
  call : String
  args : List String

/-- The filesystem side effect requested by one RPC dispatch:
`os.MkdirAll`, `os.Rename`, or `os.RemoveAll`, on already-verified paths. -/
inductive FsAction where
  | mkdirp (p : String)
  | rename (src dst : String)
  | removeAll (p : String)
deriving DecidableEq

/-- Wrapper: `enforcePath` with the panic made explicit as the uniform
`"invalid path"` error. -/
def enforcePathE (cfg : Config) (fsEval : String → String) (p : String) :
    Except String String :=
  match enforcePath cfg fsEval p with
  | none => .error "invalid path"
  | some fp => .ok fp

/-- Go slice indexing `args[i]`: out of range panics (caught by the request
boundary), modelled as an error. -/
def getArg (args : List String) (i : Nat) : Except String String :=
  match args.get? i with
  | none => .error "index out of range"
  | some a => .ok a

/-- The `rpc` handler's dispatch (lines 249–258 of `gossa.go`): the
`if/else if` chain on `rpc.Call`, evaluating `enforcePath` on each argument
(left to right, as Go evaluates them) before the filesystem call.  The result
is either the aborting error (from a panic) or the list of filesystem actions
performed together with the `"ok"` response body.  A `call` matching none of
the three branches leaves `err` nil and falls through to `w.Write([]byte("ok"))`
with no action. -/
def rpcHandle (cfg : Config) (fsEval : String → String) (c : RpcCall) :
    Except String (List FsAction × String) :=
  if c.call = "mkdirp" then
    match getArg c.args 0 with
    | .error e => .error e
    | .ok a0 =>
      match enforcePathE cfg fsEval a0 with
      | .error e => .error e
      | .ok p0 => .ok ([.mkdirp p0], "ok")
  else if c.call = "mv" then
    match getArg c.args 0 with
    | .error e => .error e
    | .ok a0 =>
      match enforcePathE cfg fsEval a0 with
      | .error e => .error e
      | .ok p0 =>
        match getArg c.args 1 with
        | .error e => .error e
        | .ok a1 =>
          match enforcePathE cfg fsEval a1 with
          | .error e => .error e
          | .ok p1 => .ok ([.rename p0 p1], "ok")
  else if c.call = "rm" then
    match getArg c.args 0 with
    | .error e => .error e
    | .ok a0 =>
      match enforcePathE cfg fsEval a0 with
      | .error e => .error e
      | .ok p0 => .ok ([.removeAll p0], "ok")
  else .ok ([], "ok")

/-- Go `strings.ToLower` restricted to ASCII (all inputs of interest);
Lean's `Char.toLower` performs the same `'A'..'Z'` mapping. -/
def lowerStr (l : List Char) : List Char :=
  l.map Char.toLower

/-- The extension computed for a file row by `replyList`
(lines 138–139 of `gossa.go`):
`sl := strings.Split(el.Name(), "."); ext := strings.ToLower(sl[len(sl)-1])`. -/
def fileExt (name : String) : String :=
  String.mk (lowerStr (lastComp [] (splitOnChar '.' name.toList)))

/-- Spec-side definition, following the spec's words: "the lowercase substring
after the last `.` in the filename" — the longest dot-free suffix, lowercased.
For a name with no `.` this suffix is the whole name. -/
def extAfterLastDot (name : String) : String :=
  String.mk (lowerStr (name.toList.reverse.takeWhile (fun c => c != '.')).reverse)

/-- Spec-side definition, following the spec's words: the raw path contains a
path segment (slash-separated component) beginning with `'.'`. -/
def hasHiddenSeg (p : String) : Bool :=
  (splitOnChar '/' p.toList).any (fun seg => leadsWith seg ['.'])

example : goClean "/srv/data/srv/data/../../etc/passwd" = "/srv/data/etc/passwd" := by decide
example : goClean "//a/./b/../c/" = "/a/c" := by decide
example : goClean "../../x" = "../../x" := by decide
example : goClean "/.." = "/" := by decide
example : goClean "" = "." := by decide
example : goJoin "/srv/data" ".h" = "/srv/data/.h" := by decide
example : trimPref "/srv/data/../../etc/passwd" "/" = "srv/data/../../etc/passwd" := by decide
example : containsSub "/srv/data/../../etc/passwd" "/." = true := by decide
example : containsSub ".h" "/." = false := by decide
example :
    enforcePath ⟨"/srv/data", "/", true, false, "/"⟩ (fun _ => "") "/a/b" =
      some "/srv/data/a/b" := by decide
example : fileExt "README" = "readme" := by decide
example : fileExt "a.TXT" = "txt" := by decide
example : fileExt ".gitignore" = "gitignore" := by decide
example : fileExt "b." = "" := by decide
example : extAfterLastDot "README" = "readme" := by decide
example : hasHiddenSeg ".h" = true := by decide
example : hasHiddenSeg "a/b" = false := by decide
example :
    zipProcess true [⟨".", true, false⟩, ⟨"sub", true, false⟩, ⟨"sub/.hidden", false, false⟩] =
      .ok [⟨"sub/.hidden", zipStore⟩] := rfl
example :
    zipProcess true [⟨".", true, false⟩, ⟨".l", false, true⟩] = .ok [] := rfl
example :
    rpcHandle ⟨"/srv/data", "/", true, false, "/"⟩ (fun _ => "") ⟨"chmod", ["/a"]⟩ =
      .ok ([], "ok") := rfl

/-- A Boolean that is not `true` is `false`. -/
theorem bool_not_true {b : Bool} (h : ¬b = true) : b = false := by
  cases b
  · rfl
  · exact absurd rfl h

/-- Prefix-of-prefix transitivity for `leadsWith`. -/
theorem leadsWith_trans {a b c : List Char} (h1 : leadsWith b a = true)
    (h2 : leadsWith c b = true) : leadsWith c a = true := by
  induction a generalizing b c with
  | nil => cases c <;> simp [leadsWith]
  | cons x as ih =>
    cases b with
    | nil => simp [leadsWith] at h1
    | cons y bs =>
      cases c with
      | nil => simp [leadsWith] at h2
      | cons z cs =>
        simp only [leadsWith, Bool.and_eq_true, beq_iff_eq] at h1 h2 ⊢
        exact ⟨h2.1.trans h1.1, ih h1.2 h2.2⟩

/-- C1: every accepted raw path resolves to an absolute path carrying the
canonicalized root `initPath` as a string prefix; rejection is the only other
outcome.  In particular no accepted path lies outside the root in the
string-prefix sense. -/
theorem enforcePath_inside_root (cfg : Config) (fsEval : String → String)
    (p fp : String) (hroot : hasPref cfg.initPath "/" = true)
    (h : enforcePath cfg fsEval p = some fp) :
    hasPref fp cfg.initPath = true ∧ hasPref fp "/" = true := by
  unfold enforcePath at h
  by_cases hc :
      (!hasPref (resolvedAbs cfg p) cfg.initPath
        || (cfg.skipHidden && containsSub p "/.")
        || (!cfg.symlinks && (fsEval (resolvedAbs cfg p)).length != 0
              && !hasPref (fsEval (resolvedAbs cfg p)) cfg.initPath)) = true
  · rw [if_pos hc] at h
    exact absurd h (by simp)
  · rw [if_neg hc] at h
    have hfp : resolvedAbs cfg p = fp := Option.some.inj h
    subst hfp
    have h1 : hasPref (resolvedAbs cfg p) cfg.initPath = true := by
      rcases Bool.eq_false_or_eq_true (hasPref (resolvedAbs cfg p) cfg.initPath) with hx | hx
      · exact hx
      · exact absurd (by rw [hx]; rfl) hc
    exact ⟨h1, leadsWith_trans (a := "/".toList) hroot h1⟩

/-- Witness for C1 at a concrete accepted input. -/
theorem enforcePath_inside_root_witness :
    hasPref "/srv/data/a" "/srv/data" = true ∧ hasPref "/srv/data/a" "/" = true :=
  enforcePath_inside_root ⟨"/srv/data", "/", true, false, "/"⟩ (fun _ => "")
    "/a" "/srv/data/a" (by decide) (by decide)

/-- C2 counterexample: with `skipHidden = true`, the raw path `".h"` — a
single path segment beginning with `'.'` — is accepted, because the code's
check is `strings.Contains(p, "/.")` and `".h"` has no `"/."` occurrence.
The claim that every raw path containing a `'.'`-prefixed segment is rejected
is therefore false. -/
theorem hidden_seg_accepted_cex :
    hasHiddenSeg ".h" = true ∧
      enforcePath ⟨"/srv/data", "/", true, false, "/"⟩ (fun _ => "") ".h" =
        some "/srv/data/.h" := by
  constructor
  · decide
  · decide

/-- C2 amended: with `skipHidden = true`, `enforcePath` rejects exactly the
raw strings containing the substring `"/."` — i.e. every `'.'`-prefixed
segment that is preceded by a slash; a leading `'.'`-segment of a relative raw
string escapes the check.  The check is performed on the raw,
un-canonicalized request string. -/
theorem enforcePath_rejects_slashdot (cfg : Config) (fsEval : String → String)
    (p : String) (hk : cfg.skipHidden = true) (hc : containsSub p "/." = true) :
    enforcePath cfg fsEval p = none := by
  simp [enforcePath, hk, hc]

/-- Witness for the amended C2 at a concrete rejected input. -/
theorem enforcePath_rejects_slashdot_witness :
    enforcePath ⟨"/srv/data", "/", true, false, "/"⟩ (fun _ => "") "/a/.h" = none :=
  enforcePath_rejects_slashdot ⟨"/srv/data", "/", true, false, "/"⟩ (fun _ => "")
    "/a/.h" (by decide) (by decide)

/-- C4: with root `/srv/data` and route prefix `/` (and the default
`skipHidden = true`), the raw request `/srv/data/../../etc/passwd` is rejected
for every symlink-resolution oracle and either symlink policy: the raw string
contains `"/."` (inside `"/../"`), so the hidden-segment disjunct fires. -/
theorem traversal_scenario_rejected (fsEval : String → String) (sym : Bool) :
    enforcePath ⟨"/srv/data", "/", true, sym, "/"⟩ fsEval
      "/srv/data/../../etc/passwd" = none := by
  have hc : containsSub "/srv/data/../../etc/passwd" "/." = true := by decide
  simp [enforcePath, hc]

/-- C3 counterexample: a path whose symlink-resolved form is non-empty and
outside the root is NOT always accepted when `followSymlinks = true` — the
hidden-segment check still rejects it.  Here the resolution oracle sends
everything to `"/outside"` (non-empty, without the root prefix), the symlink
policy is permissive, yet `"/.d"` is rejected. -/
theorem symlink_escape_true_rejected_cex :
    ((fun _ => "/outside") (resolvedAbs ⟨"/srv/data", "/", true, true, "/"⟩ "/.d")).length ≠ 0 ∧
      hasPref "/outside" "/srv/data" = false ∧
      enforcePath ⟨"/srv/data", "/", true, true, "/"⟩ (fun _ => "/outside") "/.d" = none := by
  refine ⟨by decide, by decide, by decide⟩

/-- C3 amended: when `followSymlinks = false`, every path whose
symlink-resolved form is non-empty and lacks the root prefix is rejected;
when `followSymlinks = true` the symlink-escape check is skipped, and such a
path is accepted provided the lexical root-prefix check passes and the
hidden-segment check does not fire. -/
theorem enforcePath_symlink_policy (cfg : Config) (fsEval : String → String)
    (p : String) :
    (cfg.symlinks = false →
      (fsEval (resolvedAbs cfg p)).length ≠ 0 →
      hasPref (fsEval (resolvedAbs cfg p)) cfg.initPath = false →
      enforcePath cfg fsEval p = none) ∧
    (cfg.symlinks = true →
      hasPref (resolvedAbs cfg p) cfg.initPath = true →
      (cfg.skipHidden && containsSub p "/.") = false →
      enforcePath cfg fsEval p = some (resolvedAbs cfg p)) := by
  constructor
  · intro hsym hlen hpre
    have hbne : ((fsEval (resolvedAbs cfg p)).length != 0) = true := by
      simpa [bne_iff_ne] using hlen
    simp [enforcePath, hsym, hbne, hpre]
  · intro hsym hfp hhid
    simp [enforcePath, hsym, hfp, hhid]

/-- Witness for the amended C3, instantiating both directions: under
`followSymlinks = false` the out-of-root resolution `"/etc/x"` forces
rejection of `"/a"`; under `followSymlinks = true` the same path is accepted. -/
theorem enforcePath_symlink_policy_witness :
    enforcePath ⟨"/srv/data", "/", true, false, "/"⟩ (fun _ => "/etc/x") "/a" = none ∧
      enforcePath ⟨"/srv/data", "/", true, true, "/"⟩ (fun _ => "/etc/x") "/a" =
        some "/srv/data/a" :=
  ⟨(enforcePath_symlink_policy ⟨"/srv/data", "/", true, false, "/"⟩
      (fun _ => "/etc/x") "/a").1 rfl (by decide) (by decide),
   (enforcePath_symlink_policy ⟨"/srv/data", "/", true, true, "/"⟩
      (fun _ => "/etc/x") "/a").2 rfl (by decide) (by decide)⟩

/-- C8 counterexample: with route prefix `"/x/"`, the raw path
`"/etc/passwd"` does not carry the prefix, yet it is not rejected:
`strings.TrimPrefix` leaves it unchanged, it is joined under the root, and
resolution succeeds. -/
theorem route_pref_absent_accepted_cex :
    hasPref "/etc/passwd" "/x/" = false ∧
      enforcePath ⟨"/srv/data", "/x/", true, false, "/"⟩ (fun _ => "") "/etc/passwd" =
        some "/srv/data/etc/passwd" := by
  refine ⟨by decide, by decide⟩

/-- `trimPref` with the empty prefix is the identity. -/
theorem trimPref_empty (p : String) : trimPref p "" = p := by
  unfold trimPref
  rw [if_pos]
  · show String.mk (p.toList.drop 0) = p
    rw [List.drop_zero]
    rfl
  · show leadsWith p.toList [] = true
    rw [leadsWith]

/-- C8 amended: when the configured route prefix is absent from the front of
the raw path, `strings.TrimPrefix` is a no-op, so resolution proceeds exactly
as if no prefix were configured at all; absence of the prefix is not by itself
a rejection (the path may well be accepted, as the counterexample shows). -/
theorem trim_absent_same_as_empty (cfg : Config) (fsEval : String → String)
    (p : String) (h : hasPref p cfg.extraPath = false) :
    enforcePath cfg fsEval p =
      enforcePath { cfg with extraPath := "" } fsEval p := by
  have ht : trimPref p cfg.extraPath = p := by
    unfold trimPref
    rw [h]
    rfl
  unfold enforcePath resolvedAbs
  rw [ht]
  rw [show ({ cfg with extraPath := "" } : Config).initPath = cfg.initPath from rfl,
    show ({ cfg with extraPath := "" } : Config).cwd = cfg.cwd from rfl,
    show ({ cfg with extraPath := "" } : Config).skipHidden = cfg.skipHidden from rfl,
    show ({ cfg with extraPath := "" } : Config).symlinks = cfg.symlinks from rfl,
    show ({ cfg with extraPath := "" } : Config).extraPath = "" from rfl,
    trimPref_empty]

/-- Witness for the amended C8 at a concrete prefix-less input. -/
theorem trim_absent_same_as_empty_witness :
    enforcePath ⟨"/srv/data", "/x/", true, false, "/"⟩ (fun _ => "") "/etc/passwd" =
      enforcePath ⟨"/srv/data", "", true, false, "/"⟩ (fun _ => "") "/etc/passwd" :=
  trim_absent_same_as_empty ⟨"/srv/data", "/x/", true, false, "/"⟩ (fun _ => "")
    "/etc/passwd" (by decide)

/-- C5 counterexample: with `skipHidden = true`, a walk of a subtree holding
`sub/.hidden` — whose relative path has a `'.'`-prefixed segment at depth two —
emits that entry into the archive: the code's check is
`strings.HasPrefix(rel, ".")`, which only prunes hidden paths at the top level
of the requested subtree. -/
theorem zip_deep_hidden_included_cex :
    hasHiddenSeg "sub/.hidden" = true ∧
      zipProcess true
          [⟨".", true, false⟩, ⟨"sub", true, false⟩, ⟨"sub/.hidden", false, false⟩] =
        .ok [⟨"sub/.hidden", zipStore⟩] :=
  ⟨by decide, rfl⟩

/-- C5 amended: a zip walk that completes contains exactly the non-directory
visited entries whose relative path does not BEGIN with `'.'` when
`skipHidden` is true (so everything under a top-level hidden directory is
pruned, but a hidden segment strictly deeper than the requested root is not),
each stored with method `zip.Store` (uncompressed) under its forward-slash
relative path. -/
theorem zip_output_characterization (k : Bool) (items : List WalkItem)
    (es : List ZipEntry) (h : zipProcess k items = .ok es) :
    es = (items.filter
        (fun it => !it.isDir && !(k && hasPref it.rel "."))).map
      (fun it => ZipEntry.mk it.rel zipStore) := by
  induction items generalizing es with
  | nil =>
    unfold zipProcess at h
    cases h
    rfl
  | cons it rest ih =>
    unfold zipProcess at h
    by_cases hd : it.isDir = true
    · rw [if_pos hd] at h
      rw [List.filter_cons_of_neg (by simp [hd])]
      exact ih _ h
    · have hd' : it.isDir = false := bool_not_true hd
      rw [if_neg hd] at h
      by_cases hh : (k && hasPref it.rel ".") = true
      · rw [if_pos hh] at h
        rw [List.filter_cons_of_neg (by simp [hd', hh])]
        exact ih _ h
      · rw [if_neg hh] at h
        by_cases hs : it.isSym = true
        · rw [if_pos hs] at h
          exact absurd h (by simp)
        · rw [if_neg hs] at h
          cases hz : zipProcess k rest with
          | error s =>
            rw [hz] at h
            exact absurd h (by simp)
          | ok es' =>
            rw [hz] at h
            cases h
            rw [List.filter_cons_of_pos
              (by show (_ && _) = true; rw [hd', bool_not_true hh]; rfl),
              List.map_cons]
            exact congrArg _ (ih _ hz)

/-- Witness for the amended C5 at a concrete completed walk. -/
theorem zip_output_characterization_witness :
    ([ZipEntry.mk "a.txt" zipStore] : List ZipEntry) =
      (([⟨".", true, false⟩, ⟨".git", true, false⟩, ⟨".git/conf", false, false⟩,
          ⟨"a.txt", false, false⟩] : List WalkItem).filter
        (fun it => !it.isDir && !(true && hasPref it.rel "."))).map
      (fun it => ZipEntry.mk it.rel zipStore) :=
  zip_output_characterization true
    [⟨".", true, false⟩, ⟨".git", true, false⟩, ⟨".git/conf", false, false⟩,
      ⟨"a.txt", false, false⟩]
    [ZipEntry.mk "a.txt" zipStore] rfl

/-- C9 counterexample: a symlink named `.l` at the top level of the requested
subtree is silently skipped (not a fatal abort) when `skipHidden = true`,
because the hidden-path skip runs before the symlink check: the walk
completes with an empty archive. -/
theorem zip_hidden_symlink_skipped_cex :
    ([⟨".", true, false⟩, ⟨".l", false, true⟩] : List WalkItem).any
        (fun it => it.isSym) = true ∧
      zipProcess true [⟨".", true, false⟩, ⟨".l", false, true⟩] = .ok [] :=
  ⟨by decide, rfl⟩

/-- C9 amended: a symlink anywhere in the subtree whose relative path is NOT
pruned by the hidden check aborts the entire stream with the fatal
`"symlink not allowed in zip downloads"` error (no further entries are
written); a symlink whose relative path begins with `'.'` when `skipHidden`
is true is instead silently skipped before the symlink check. -/
theorem zip_symlink_aborts (k : Bool) (items : List WalkItem)
    (h : items.any
      (fun it => !it.isDir && it.isSym && !(k && hasPref it.rel ".")) = true) :
    zipProcess k items = .error "symlink not allowed in zip downloads" := by
  induction items with
  | nil => simp at h
  | cons it rest ih =>
    rw [List.any_cons] at h
    unfold zipProcess
    by_cases hd : it.isDir = true
    · rw [if_pos hd]
      apply ih
      simpa [hd] using h
    · have hd' : it.isDir = false := bool_not_true hd
      rw [if_neg hd]
      by_cases hh : (k && hasPref it.rel ".") = true
      · rw [if_pos hh]
        apply ih
        simpa [hh] using h
      · rw [if_neg hh]
        by_cases hs : it.isSym = true
        · rw [if_pos hs]
        · have hs' : it.isSym = false := bool_not_true hs
          rw [if_neg hs]
          rw [ih (by simpa [hd', hs'] using h)]

/-- Witness for the amended C9: a non-hidden symlink aborts the walk. -/
theorem zip_symlink_aborts_witness :
    zipProcess true [⟨".", true, false⟩, ⟨"link", false, true⟩] =
      .error "symlink not allowed in zip downloads" :=
  zip_symlink_aborts true [⟨".", true, false⟩, ⟨"link", false, true⟩] (by decide)

/-- C6 counterexample: an RPC whose `call` is `"chmod"` — none of `mkdirp`,
`mv`, `rm` — is answered with the `"ok"` body and performs no action: a
silent no-op, not a rejection. -/
theorem rpc_unknown_ok_cex :
    rpcHandle ⟨"/srv/data", "/", true, false, "/"⟩ (fun _ => "") ⟨"chmod", ["/a"]⟩ =
        .ok ([], "ok") ∧
      (("chmod" : String) ≠ "mkdirp" ∧ ("chmod" : String) ≠ "mv" ∧
        ("chmod" : String) ≠ "rm") :=
  ⟨rfl, by decide⟩

/-- C6 amended: an RPC request whose `call` is none of `mkdirp`, `mv`, `rm`
falls through every branch with `err` still nil and is answered `"ok"` with no
filesystem action performed: unknown operations are a silent no-op, not a
rejection. -/
theorem rpc_unknown_silent_ok (cfg : Config) (fsEval : String → String)
    (c : RpcCall) (h1 : c.call ≠ "mkdirp") (h2 : c.call ≠ "mv")
    (h3 : c.call ≠ "rm") :
    rpcHandle cfg fsEval c = .ok ([], "ok") := by
  unfold rpcHandle
  rw [if_neg h1, if_neg h2, if_neg h3]

/-- Witness for the amended C6 at a concrete unknown call. -/
theorem rpc_unknown_silent_ok_witness :
    rpcHandle ⟨"/srv/data", "/", true, false, "/"⟩ (fun _ => "") ⟨"touch", []⟩ =
      .ok ([], "ok") :=
  rpc_unknown_silent_ok ⟨"/srv/data", "/", true, false, "/"⟩ (fun _ => "")
    ⟨"touch", []⟩ (by decide) (by decide) (by decide)

/-- C7: in the `mv` branch both arguments are passed through `enforcePath`
(left to right) before `os.Rename` runs: when both resolve, the single action
is the rename of the two verified paths; when either argument (in particular
the destination) is rejected, the request aborts with the uniform
`"invalid path"` error and no action — the filesystem is untouched. -/
theorem mv_both_enforced (cfg : Config) (fsEval : String → String) (a b : String) :
    (∀ pa pb, enforcePath cfg fsEval a = some pa →
      enforcePath cfg fsEval b = some pb →
      rpcHandle cfg fsEval ⟨"mv", [a, b]⟩ =
        .ok ([FsAction.rename pa pb], "ok")) ∧
    ((enforcePath cfg fsEval a = none ∨ enforcePath cfg fsEval b = none) →
      rpcHandle cfg fsEval ⟨"mv", [a, b]⟩ = .error "invalid path") := by
  have key : rpcHandle cfg fsEval ⟨"mv", [a, b]⟩ =
      (match enforcePathE cfg fsEval a with
        | .error e => .error e
        | .ok p0 =>
          match enforcePathE cfg fsEval b with
          | .error e => .error e
          | .ok p1 => .ok ([FsAction.rename p0 p1], "ok")) := rfl
  constructor
  · intro pa pb ha hb
    rw [key]
    simp [enforcePathE, ha, hb]
  · intro h
    rcases h with h | h
    · rw [key]
      simp [enforcePathE, h]
    · rw [key]
      cases hA : enforcePath cfg fsEval a with
      | none => simp [enforcePathE, hA]
      | some pa => simp [enforcePathE, hA, h]

/-- Witness for C7, instantiating both directions: a successful move of two
verified paths, and a rejected move whose destination climbs out of the root. -/
theorem mv_both_enforced_witness :
    rpcHandle ⟨"/srv/data", "/", true, false, "/"⟩ (fun _ => "") ⟨"mv", ["/q", "/r"]⟩ =
        .ok ([FsAction.rename "/srv/data/q" "/srv/data/r"], "ok") ∧
      rpcHandle ⟨"/srv/data", "/", true, false, "/"⟩ (fun _ => "")
          ⟨"mv", ["/q", "/../../etc/passwd"]⟩ = .error "invalid path" :=
  ⟨(mv_both_enforced ⟨"/srv/data", "/", true, false, "/"⟩ (fun _ => "") "/q" "/r").1
      "/srv/data/q" "/srv/data/r" (by decide) (by decide),
   (mv_both_enforced ⟨"/srv/data", "/", true, false, "/"⟩ (fun _ => "")
      "/q" "/../../etc/passwd").2 (Or.inr (by decide))⟩

/-- Splitting a separator-free list: `splitOnChar` list is the singleton of that list. -/
theorem splitOnChar_no_sep (sep : Char) (l : List Char)
    (h : l.any (fun c => c == sep) = false) : splitOnChar sep l = [l] := by
  induction l with
  | nil => rfl
  | cons c cs ih =>
    rw [List.any_cons] at h
    rcases Bool.or_eq_false_iff.mp h with ⟨hc, hcs⟩
    simp only [splitOnChar, ih hcs, hc]
    rfl

/-- Splitting a list containing the separator has at least two
components. -/
theorem splitOnChar_sep_tail (sep : Char) (l : List Char)
    (h : l.any (fun c => c == sep) = true) :
    ∃ h0 t, splitOnChar sep l = h0 :: t ∧ t ≠ [] := by
  induction l with
  | nil => simp at h
  | cons c cs ih =>
    rw [List.any_cons] at h
    by_cases hc : (c == sep) = true
    · rcases hr : splitOnChar sep cs with _ | ⟨h0, t⟩
      · exact absurd hr (by
          cases cs with
          | nil => simp [splitOnChar]
          | cons x xs =>
            simp only [splitOnChar]
            rcases splitOnChar sep xs with _ | ⟨a, b⟩
            · simp
            · by_cases hx : (x == sep) = true <;> simp [hx])
      · refine ⟨[], h0 :: t, ?_, by simp⟩
        simp only [splitOnChar, hr, hc]
        rfl
    · have hcs : cs.any (fun x => x == sep) = true := by
        rcases Bool.or_eq_true_iff.mp h with h' | h'
        · exact absurd h' hc
        · exact h'
      rcases ih hcs with ⟨h0, t, hspl, ht⟩
      refine ⟨c :: h0, t, ?_, ht⟩
      simp only [splitOnChar, hspl, bool_not_true hc]
      rfl

/-- Behaviour of `takeWhile` over a list with one element appended: either the whole front
satisfies `p` and the last element is kept iff it does, or the front already
stops the scan. -/
theorem takeWhile_snoc (p : Char → Bool) (ys : List Char) (c : Char) :
    (ys ++ [c]).takeWhile p =
      if ys.all p then ys ++ (if p c then [c] else []) else ys.takeWhile p := by
  induction ys with
  | nil => by_cases hc : p c <;> simp [List.takeWhile, hc]
  | cons y ys ih =>
    by_cases hy : p y = true
    · simp only [List.cons_append, List.takeWhile_cons, hy, List.all_cons, ih]
      by_cases hall : ys.all p = true
      · simp [hall]
      · simp [hall, bool_not_true hall]
    · simp [List.takeWhile_cons, bool_not_true hy, List.all_cons]

/-- Complement law: `all (fun c => c != sep)` is the negation of `any (· == sep)`. -/
theorem all_ne_eq_not_any (sep : Char) (l : List Char) :
    (l.all (fun c => c != sep)) = !(l.any (fun c => c == sep)) := by
  induction l with
  | nil => rfl
  | cons c cs ih =>
    rw [List.all_cons, List.any_cons, ih, Bool.not_or]
    rfl

/-- The last component of the `'.'`-split of a list is its longest
separator-free suffix: Go's `sl[len(sl)-1]` equals the substring after the
last separator. -/
theorem lastComp_splitOnChar (sep : Char) (l : List Char) :
    lastComp [] (splitOnChar sep l) =
      (l.reverse.takeWhile (fun c => c != sep)).reverse := by
  induction l with
  | nil => rfl
  | cons c cs ih =>
    have hrev : (c :: cs).reverse = cs.reverse ++ [c] := List.reverse_cons c cs
    rw [hrev, takeWhile_snoc]
    cases hcs : cs.any (fun x => x == sep) with
    | false =>
      have hall : cs.reverse.all (fun x => x != sep) = true := by
        rw [List.all_reverse, all_ne_eq_not_any, hcs]
        rfl
      rw [if_pos hall]
      have hspl := splitOnChar_no_sep sep cs hcs
      by_cases hc : (c == sep) = true
      · have hpc : ((c != sep) : Bool) = false := by
          rw [bne, hc]
          rfl
        have hL : splitOnChar sep (c :: cs) = [] :: [cs] := by
          simp only [splitOnChar, hspl]
          rw [if_pos hc]
        rw [hL, if_neg (by rw [hpc]; exact Bool.false_ne_true),
          List.append_nil, List.reverse_reverse]
        rfl
      · have hpc : ((c != sep) : Bool) = true := by
          rw [bne, bool_not_true hc]
          rfl
        have hL : splitOnChar sep (c :: cs) = [c :: cs] := by
          simp only [splitOnChar, hspl]
          rw [if_neg hc]
        rw [hL, if_pos hpc, List.reverse_append, List.reverse_reverse]
        rfl
    | true =>
      have hall : cs.reverse.all (fun x => x != sep) = false := by
        rw [List.all_reverse, all_ne_eq_not_any, hcs]
        rfl
      rw [if_neg (by rw [hall]; exact Bool.false_ne_true)]
      rcases splitOnChar_sep_tail sep cs hcs with ⟨h0, t, hspl, ht⟩
      rcases t with _ | ⟨t0, ts⟩
      · exact absurd rfl ht
      rw [hspl] at ih
      by_cases hc : (c == sep) = true
      · have hL : splitOnChar sep (c :: cs) = [] :: h0 :: t0 :: ts := by
          simp only [splitOnChar, hspl]
          rw [if_pos hc]
        rw [hL]
        exact ih
      · have hL : splitOnChar sep (c :: cs) = (c :: h0) :: t0 :: ts := by
          simp only [splitOnChar, hspl]
          rw [if_neg hc]
        rw [hL]
        exact ih

/-- C10 counterexample: the directory lister's extension for `README` — a
filename containing no `'.'` — is `"readme"`, not the empty string:
`strings.Split` of a dot-free name yields the whole name as its only (and
last) component, which is then lowercased. -/
theorem ext_no_dot_cex :
    ("README".toList.any (fun c => c == '.')) = false ∧
      fileExt "README" = "readme" ∧ ("readme" : String) ≠ "" :=
  ⟨by decide, by decide, by decide⟩

/-- C10 amended: the reported extension is always the lowercased longest
dot-free suffix of the filename — the substring after the last `'.'` when one
occurs, and (contrary to the claim) the entire lowercased filename when the
name contains no `'.'`. -/
theorem ext_eq_after_last_dot (name : String) :
    fileExt name = extAfterLastDot name := by
  unfold fileExt extAfterLastDot
  rw [lastComp_splitOnChar]

end Gossa
